import Mathlib

/-!
Shallow embedding of the factor algebra and variable-elimination engine of
the `csci270bloodlines` repository (src/factor.py and src/bayes.py).

Modelling conventions:
* variable names and value labels are strings, as in the source;
* Python dicts become association lists; `dictFind` is dict lookup
  (first matching key; the embedded code only builds dicts with distinct
  keys, as Python dicts have);
* Python floats become rationals;
* a Python `raise KeyError` becomes `Except.error` with a structured
  `FactorError`, distinguishing the two KeyError messages of
  `Factor.__getitem__` (missing variable vs. assignment not in the table);
* `itertools.product` becomes `productLists` (rightmost coordinate varies
  fastest, as in Python);
* a Python `set` collected from a traversal and then listed becomes a
  first-seen-order deduplication (`dedupFS`); Python's set iteration order
  is unspecified, and no claim below depends on the order chosen;
* the domain mapping becomes a total function `Var → List Val`; every claim
  presupposes that the domains cover the variables in play, so the
  `KeyError` of `domains[var]` on a missing variable is never exercised.
-/

abbrev Var := String

abbrev Val := String

/-- An event: a Python dict mapping variable names to values. -/
abbrev Event := List (Var × Val)

/-- Domain mapping: each variable's ordered list of possible values. -/
abbrev Domains := Var → List Val

/-- Python dict lookup on an association list: first matching key. -/
def dictFind {α β : Type} [DecidableEq α] : List (α × β) → α → Option β
  | [], _ => none
  | (k, v) :: rest, k₀ => if k = k₀ then some v else dictFind rest k₀

/-- `itertools.product` over a list of lists: the rightmost coordinate
varies fastest, exactly as in Python. -/
def productLists {α : Type} : List (List α) → List (List α)
  | [] => [[]]
  | l :: ls => l.flatMap (fun x => (productLists ls).map (fun rest => x :: rest))

/-- Append `x` unless already present: one step of first-seen dedup. -/
def insertIfNew {α : Type} [DecidableEq α] (acc : List α) (x : α) : List α :=
  if x ∈ acc then acc else acc ++ [x]

/-- First-seen-order deduplication, modelling `list(set(...))` built by
inserting elements in traversal order. -/
def dedupFS {α : Type} [DecidableEq α] (l : List α) : List α :=
  l.foldl insertIfNew []

/-- The two KeyError shapes raised by `Factor.__getitem__`. -/
inductive FactorError where
  | missingVariable (v : Var)
  | undefinedAssignment (e : Event)
deriving DecidableEq, Repr

/-- Decidable equality on `Except` results, so that concrete runs of the
embedded operations can be checked by `decide`. -/
instance exceptDecidableEq {ε γ : Type} [DecidableEq ε] [DecidableEq γ] :
    DecidableEq (Except ε γ) := fun a b =>
  match a, b with
  | .error e1, .error e2 => decidable_of_iff (e1 = e2) (by simp)
  | .error _, .ok _ => isFalse (by simp)
  | .ok _, .error _ => isFalse (by simp)
  | .ok x, .ok y => decidable_of_iff (x = y) (by simp)

/-- `class Factor`: an ordered scope and a value table from key tuples
(one value per scope variable, in scope order) to reals. -/
structure Factor where
  scope : List Var
  values : List (List Val × ℚ)
deriving DecidableEq, Repr

/-- The key-building loop of `Factor.__getitem__`: for each scope variable
require a value in the event, failing at the first missing variable. -/
def eventKey : List Var → Event → Except FactorError (List Val)
  | [], _ => .ok []
  | v :: vs, e =>
    match dictFind e v with
    | none => .error (.missingVariable v)
    | some x => (eventKey vs e).map (fun rest => x :: rest)

/-- `Factor.__getitem__`: build the key tuple from the event, then look it
up in the value table. -/
def Factor.getItem (f : Factor) (e : Event) : Except FactorError ℚ :=
  match eventKey f.scope e with
  | .error err => .error err
  | .ok key =>
    match dictFind f.values key with
    | some q => .ok q
    | none => .error (.undefinedAssignment e)

/-- A Python `for` loop that builds a list, where the body may raise: the
loop stops at the first failure. Used for the table-building loops of
`marginalize` and `multiply_factors`. -/
def exceptMapList {ε α β : Type} (g : α → Except ε β) : List α → Except ε (List β)
  | [] => .ok []
  | a :: t =>
    match g a with
    | .error e => .error e
    | .ok b => (exceptMapList g t).map (fun bs => b :: bs)

/-- A Python `for` loop that threads an accumulator, where the body may
raise: the loop stops at the first failure. Used for the running sum of
`marginalize`, the running product of `multiply_factors`, and the
elimination loop of `compute_marginal`. -/
def exceptFoldList {ε α β : Type} (g : β → α → Except ε β) : β → List α → Except ε β
  | init, [] => .ok init
  | init, a :: t =>
    match g init a with
    | .error e => .error e
    | .ok b => exceptFoldList g b t

/-- The values a given tuple position attains across the key tuples of the
table (`seenValues` in `marginalize`); a Python set, listed. Key tuples
always have scope length, so the default of `getD` is never used. -/
def seenAt (f : Factor) (i : Nat) : List Val :=
  dedupFS (f.values.map (fun kv => kv.1.getD i ""))

/-- The `possibleValues` dict of `marginalize`, keyed by scope-variable
name. Looking up the reversed table models dict overwrite (for a
duplicated scope name, the last index wins, as in Python). -/
def possibleValues (f : Factor) (x : Var) : List Val :=
  (dictFind ((f.scope.enum.map (fun p => (p.2, seenAt f p.1))).reverse) x).getD []

/-- `marginalize(factor, variable)`: remove `x` from the scope; for each
combination of values seen (in the table) for the remaining variables, sum
the factor's value over every value seen for `x`. Lookups of unsupported
combinations fail exactly as `Factor.__getitem__` does. -/
def marginalize (factor : Factor) (x : Var) : Except FactorError Factor := do
  let newVars := factor.scope.filter (fun u => decide (u ≠ x))
  let newValues ← exceptMapList
    (fun combo =>
      (exceptFoldList
        (fun acc val => (factor.getItem (newVars.zip combo ++ [(x, val)])).map
          (fun q => acc + q))
        0 (possibleValues factor x)).map (fun sumVal => (combo, sumVal)))
    (productLists (newVars.map (possibleValues factor)))
  pure ⟨newVars, newValues⟩

/-- `allVars` of `multiply_factors`: ordered union of the scopes,
first-appearance order, duplicates removed. -/
def unionVars (fs : List Factor) : List Var :=
  fs.foldl (fun acc f => f.scope.foldl insertIfNew acc) []

/-- The `partialEvent` of `multiply_factors`: restrict a joint event to a
factor's own scope. In `multiply_factors` every scope variable is bound in
the joint event, so the `filterMap` drops nothing. -/
def restrictEvent (f : Factor) (e : Event) : Event :=
  f.scope.filterMap (fun u => (dictFind e u).map (fun val => (u, val)))

/-- The inner loop of `multiply_factors`: the product, over the input
factors, of each factor's value at its restriction of the joint event. -/
def jointValue (fs : List Factor) (e : Event) : Except FactorError ℚ :=
  exceptFoldList (fun acc f => (f.getItem (restrictEvent f e)).map (fun q => acc * q)) 1 fs

/-- `multiply_factors(factors, domains)`: enumerate the cartesian product
of the domains of the union scope; each joint assignment maps to the
product of the factors' values at their restrictions of it. -/
def multiply_factors (fs : List Factor) (d : Domains) : Except FactorError Factor := do
  let allVars := unionVars fs
  let newValues ← exceptMapList
    (fun combo => (jointValue fs (allVars.zip combo)).map (fun q => (combo, q)))
    (productLists (allVars.map d))
  pure ⟨allVars, newValues⟩

/-- `class BayesianNetwork`: a list of factors plus the domain mapping. -/
structure BayesianNetwork where
  factors : List Factor
  domains : Domains

/-- The network's variable set: the union of the factor scopes. The source stores a
Python set; we list it in first-seen order (set iteration order is
unspecified in the source, and no claim depends on it). -/
def networkVariables (b : BayesianNetwork) : List Var :=
  unionVars b.factors

/-- `eliminate(bnet, variable)`: partition the factors by whether they
mention `x`; if none does, return the network unchanged; otherwise append
the marginalized product of those that do to those that do not. -/
def eliminate (b : BayesianNetwork) (x : Var) : Except FactorError BayesianNetwork := do
  let factorsWithVar := b.factors.filter (fun f => decide (x ∈ f.scope))
  let factorsWithoutVar := b.factors.filter (fun f => decide (x ∉ f.scope))
  if factorsWithVar.isEmpty then
    pure b
  else do
    let combinedFactor ← multiply_factors factorsWithVar b.domains
    let marginalizedFactor ← marginalize combinedFactor x
    pure ⟨factorsWithoutVar ++ [marginalizedFactor], b.domains⟩

/-- `compute_marginal(bnet, vars)`: eliminate every network variable not
among the query variables, then multiply the remaining factors. -/
def compute_marginal (b : BayesianNetwork) (vars : List Var) :
    Except FactorError Factor := do
  let elimOrder := (networkVariables b).filter (fun u => decide (u ∉ vars))
  let finalNet ← exceptFoldList eliminate b elimOrder
  multiply_factors finalNet.factors finalNet.domains

/-- Python dict merge `{**a, **b}`: a's keys in order with b's value
winning on collision, then b's keys not in a, in order. -/
def dictMerge (a b : Event) : Event :=
  a.map (fun kv => (kv.1, (dictFind b kv.1).getD kv.2)) ++
    b.filter (fun kv => (dictFind a kv.1).isNone)

/-- `compute_conditional(bnet, event, evidence)`: joint lookup of the
merged event first, then the evidence lookup; zero evidence probability
yields 0, otherwise the quotient. -/
def compute_conditional (b : BayesianNetwork) (event evidence : Event) :
    Except FactorError ℚ := do
  let aAndB := dictMerge event evidence
  let aAndBFactor ← compute_marginal b (aAndB.map Prod.fst)
  let prob ← aAndBFactor.getItem aAndB
  let evidenceFactor ← compute_marginal b (evidence.map Prod.fst)
  let evidenceProb ← evidenceFactor.getItem evidence
  if evidenceProb = 0 then pure 0 else pure (prob / evidenceProb)

/-- A two-variable fully-populated example factor (the worked example of
the spec's marginalization property). -/
def exF1 : Factor :=
  ⟨["A", "B"], [(["0", "0"], 1/10), (["0", "1"], 2/10), (["1", "0"], 3/10), (["1", "1"], 4/10)]⟩

/-- A sparse example factor: only two of the four assignments are present. -/
def exSparse : Factor := ⟨["A", "B"], [(["0", "0"], 1/10), (["1", "1"], 2/10)]⟩

/-- Example CPT over a single variable with a zero-probability value. -/
def exFA : Factor := ⟨["A"], [(["0"], 1), (["1"], 0)]⟩

/-- Example CPT over a single independent variable. -/
def exFB : Factor := ⟨["B"], [(["0"], 1/2), (["1"], 1/2)]⟩

/-- Example domain mapping: every variable has the two-value domain 0/1
(domains are non-empty with distinct labels, as the data model requires). -/
def exDomains : Domains := fun v =>
  if v = "A" then ["0", "1"] else if v = "B" then ["0", "1"] else ["0", "1"]

/-- The product of `exFA` and `exFB` over `exDomains`. -/
def exProdAB : Factor :=
  ⟨["A", "B"], [(["0", "0"], 1/2), (["0", "1"], 1/2), (["1", "0"], 0), (["1", "1"], 0)]⟩

/-- Example network with two independent single-variable factors. -/
def exNet : BayesianNetwork := ⟨[exFA, exFB], exDomains⟩

/-- The network `eliminate exNet "B"` produces: the factor over B is
replaced by its marginalized product, appended last. -/
def exNetElimB : BayesianNetwork := ⟨[exFA, ⟨[], [([], 1)]⟩], exDomains⟩

/-- Example network with a single uniform factor over A. -/
def exNetA : BayesianNetwork := ⟨[⟨["A"], [(["0"], 1/2), (["1"], 1/2)]⟩], exDomains⟩

/-! ### Association-list (dict) lemmas -/

theorem dictFind_cons {α β : Type} [DecidableEq α] (k : α) (v : β) (l : List (α × β)) (k₀ : α) :
    dictFind ((k, v) :: l) k₀ = if k = k₀ then some v else dictFind l k₀ := rfl

theorem dictFind_eq_some_mem {α β : Type} [DecidableEq α] {l : List (α × β)} {k : α} {v : β}
    (h : dictFind l k = some v) : (k, v) ∈ l := by
  induction l with
  | nil => simp [dictFind] at h
  | cons p rest ih =>
    obtain ⟨k₁, v₁⟩ := p
    rw [dictFind_cons] at h
    by_cases hk : k₁ = k
    · subst hk
      simp at h
      subst h
      exact List.mem_cons_self _ _
    · rw [if_neg hk] at h
      exact List.mem_cons_of_mem _ (ih h)

theorem dictFind_isSome_of_mem_keys {α β : Type} [DecidableEq α] {l : List (α × β)} {k : α}
    (h : k ∈ l.map Prod.fst) : ∃ v, dictFind l k = some v := by
  induction l with
  | nil => simp at h
  | cons p rest ih =>
    obtain ⟨k₁, v₁⟩ := p
    rw [dictFind_cons]
    by_cases hk : k₁ = k
    · exact ⟨v₁, if_pos hk⟩
    · rw [if_neg hk]
      apply ih
      simp only [List.map_cons, List.mem_cons] at h
      rcases h with h | h
      · exact absurd h.symm hk
      · exact h

theorem dictFind_eq_none_of_not_mem_keys {α β : Type} [DecidableEq α] {l : List (α × β)} {k : α}
    (h : k ∉ l.map Prod.fst) : dictFind l k = none := by
  induction l with
  | nil => rfl
  | cons p rest ih =>
    obtain ⟨k₁, v₁⟩ := p
    simp only [List.map_cons, List.mem_cons, not_or] at h
    rw [dictFind_cons, if_neg (fun hc => h.1 hc.symm), ih h.2]

theorem dictFind_append {α β : Type} [DecidableEq α] (a b : List (α × β)) (k : α) :
    dictFind (a ++ b) k =
      match dictFind a k with
      | some v => some v
      | none => dictFind b k := by
  induction a with
  | nil => rfl
  | cons p rest ih =>
    obtain ⟨k₁, v₁⟩ := p
    by_cases hk : k₁ = k
    · simp [dictFind_cons, if_pos hk]
    · simp only [List.cons_append, dictFind_cons, if_neg hk]
      exact ih

/-- With distinct keys, looking up a key occurring in the list finds its
unique value even after reversal. -/
theorem dictFind_reverse {α β : Type} [DecidableEq α] (l : List (α × β))
    (hnd : (l.map Prod.fst).Nodup) (k : α) : dictFind l.reverse k = dictFind l k := by
  induction l with
  | nil => rfl
  | cons p rest ih =>
    obtain ⟨k₁, v₁⟩ := p
    simp only [List.map_cons, List.nodup_cons] at hnd
    rw [List.reverse_cons, dictFind_append, ih hnd.2]
    by_cases hk : k₁ = k
    · subst hk
      rw [dictFind_eq_none_of_not_mem_keys hnd.1]
      simp [dictFind]
    · cases h : dictFind rest k with
      | some v => simp [dictFind, hk, h]
      | none => simp [dictFind, hk, h]

/-- `dictFind` on a zip of distinct keys against values recovers the value
at the key's position. -/
theorem dictFind_zip_get {α β : Type} [DecidableEq α] (ks : List α) (vs : List β)
    (hnd : ks.Nodup) (hlen : ks.length = vs.length) (i : Nat) (hi : i < ks.length) :
    dictFind (ks.zip vs) (ks.get ⟨i, hi⟩) = vs.get? i := by
  induction ks generalizing vs i with
  | nil => simp at hi
  | cons k rest ih =>
    match vs with
    | [] => simp at hlen
    | v :: vtail =>
      simp only [List.length_cons, Nat.succ.injEq] at hlen
      simp only [List.nodup_cons] at hnd
      match i with
      | 0 => simp [List.zip_cons_cons, dictFind_cons]
      | Nat.succ j =>
        simp only [List.zip_cons_cons, List.get_cons_succ, dictFind_cons]
        have hne : k ≠ rest.get ⟨j, Nat.lt_of_succ_lt_succ hi⟩ := by
          intro hcontra
          exact hnd.1 (hcontra ▸ List.get_mem rest _ _)
        rw [if_neg hne, ih vtail hnd.2 hlen j (Nat.lt_of_succ_lt_succ hi)]
        rfl

/-! ### First-seen dedup and scope-union lemmas -/

theorem mem_insertIfNew {α : Type} [DecidableEq α] (acc : List α) (x y : α) :
    y ∈ insertIfNew acc x ↔ y ∈ acc ∨ y = x := by
  unfold insertIfNew
  by_cases h : x ∈ acc
  · rw [if_pos h]
    constructor
    · exact Or.inl
    · rintro (hy | rfl)
      · exact hy
      · exact h
  · rw [if_neg h]
    simp

theorem insertIfNew_nodup {α : Type} [DecidableEq α] {acc : List α} (h : acc.Nodup) (x : α) :
    (insertIfNew acc x).Nodup := by
  unfold insertIfNew
  by_cases hx : x ∈ acc
  · rwa [if_pos hx]
  · rw [if_neg hx]
    refine List.Nodup.append h (List.nodup_singleton x) ?_
    intro a ha hb
    rw [List.mem_singleton] at hb
    subst hb
    exact hx ha

theorem mem_foldl_insertIfNew {α : Type} [DecidableEq α] (l : List α) (acc : List α) (y : α) :
    y ∈ l.foldl insertIfNew acc ↔ y ∈ acc ∨ y ∈ l := by
  induction l generalizing acc with
  | nil => simp
  | cons a t ih =>
    rw [List.foldl_cons, ih, mem_insertIfNew]
    simp only [List.mem_cons]
    tauto

theorem foldl_insertIfNew_nodup {α : Type} [DecidableEq α] (l : List α) {acc : List α}
    (h : acc.Nodup) : (l.foldl insertIfNew acc).Nodup := by
  induction l generalizing acc with
  | nil => exact h
  | cons a t ih => exact ih (insertIfNew_nodup h a)

theorem foldl_insertIfNew_absorb {α : Type} [DecidableEq α] (l : List α) (acc : List α)
    (h : ∀ y ∈ l, y ∈ acc) : l.foldl insertIfNew acc = acc := by
  induction l with
  | nil => rfl
  | cons a t ih =>
    rw [List.foldl_cons]
    have ha : insertIfNew acc a = acc := if_pos (h a (List.mem_cons_self a t))
    rw [ha]
    exact ih (fun y hy => h y (List.mem_cons_of_mem a hy))

theorem foldl_insertIfNew_of_nodup {α : Type} [DecidableEq α] (l : List α) (acc : List α)
    (hnd : l.Nodup) (hdis : ∀ y ∈ l, y ∉ acc) : l.foldl insertIfNew acc = acc ++ l := by
  induction l generalizing acc with
  | nil => simp
  | cons a t ih =>
    simp only [List.nodup_cons] at hnd
    rw [List.foldl_cons]
    have ha : insertIfNew acc a = acc ++ [a] :=
      if_neg (hdis a (List.mem_cons_self a t))
    have hdis2 : ∀ y ∈ t, y ∉ acc ++ [a] := by
      intro y hy
      simp only [List.mem_append, List.mem_singleton]
      rintro (hc | rfl)
      · exact hdis y (List.mem_cons_of_mem a hy) hc
      · exact hnd.1 hy
    rw [ha, ih (acc ++ [a]) hnd.2 hdis2]
    simp

theorem dedupFS_eq_self_of_nodup {α : Type} [DecidableEq α] (l : List α) (hnd : l.Nodup) :
    dedupFS l = l := by
  unfold dedupFS
  rw [foldl_insertIfNew_of_nodup l [] hnd (by simp)]
  simp

theorem mem_dedupFS {α : Type} [DecidableEq α] (l : List α) (y : α) :
    y ∈ dedupFS l ↔ y ∈ l := by
  unfold dedupFS
  rw [mem_foldl_insertIfNew]
  simp

theorem mem_unionVars (fs : List Factor) (u : Var) :
    u ∈ unionVars fs ↔ ∃ f ∈ fs, u ∈ f.scope := by
  unfold unionVars
  suffices h : ∀ acc, u ∈ fs.foldl (fun acc f => f.scope.foldl insertIfNew acc) acc ↔
      u ∈ acc ∨ ∃ f ∈ fs, u ∈ f.scope by
    rw [h []]
    simp
  induction fs with
  | nil => simp
  | cons f t ih =>
    intro acc
    rw [List.foldl_cons, ih, mem_foldl_insertIfNew]
    simp only [List.mem_cons]
    constructor
    · rintro ((h | h) | ⟨g, hg, hu⟩)
      · exact Or.inl h
      · exact Or.inr ⟨f, Or.inl rfl, h⟩
      · exact Or.inr ⟨g, Or.inr hg, hu⟩
    · rintro (h | ⟨g, (rfl | hg), hu⟩)
      · exact Or.inl (Or.inl h)
      · exact Or.inl (Or.inr hu)
      · exact Or.inr ⟨g, hg, hu⟩

theorem unionVars_nodup (fs : List Factor) : (unionVars fs).Nodup := by
  unfold unionVars
  suffices h : ∀ acc : List Var, acc.Nodup →
      (fs.foldl (fun acc f => f.scope.foldl insertIfNew acc) acc).Nodup from
    h [] List.nodup_nil
  induction fs with
  | nil => exact fun acc h => h
  | cons f t ih =>
    intro acc hacc
    exact ih _ (foldl_insertIfNew_nodup _ hacc)

theorem unionVars_single_of_nodup (f : Factor) (hnd : f.scope.Nodup) :
    unionVars [f] = f.scope := by
  unfold unionVars
  simp only [List.foldl_cons, List.foldl_nil]
  rw [foldl_insertIfNew_of_nodup _ _ hnd (by simp)]
  simp

/-! ### Cartesian-product lemmas -/

theorem mem_productLists {α : Type} (ls : List (List α)) (c : List α) :
    c ∈ productLists ls ↔ List.Forall₂ (fun x l => x ∈ l) c ls := by
  induction ls generalizing c with
  | nil =>
    simp only [productLists, List.mem_singleton]
    constructor
    · rintro rfl
      exact List.Forall₂.nil
    · intro h
      cases h
      rfl
  | cons l t ih =>
    simp only [productLists, List.mem_flatMap, List.mem_map]
    constructor
    · rintro ⟨x, hx, rest, hrest, rfl⟩
      exact List.Forall₂.cons hx ((ih rest).mp hrest)
    · intro h
      cases h with
      | cons hx hrest =>
        exact ⟨_, hx, _, (ih _).mpr hrest, rfl⟩

theorem length_of_mem_productLists {α : Type} {ls : List (List α)} {c : List α}
    (h : c ∈ productLists ls) : c.length = ls.length :=
  ((mem_productLists ls c).mp h).length_eq

theorem productLists_ne_nil {α : Type} (ls : List (List α)) (h : ∀ l ∈ ls, l ≠ []) :
    productLists ls ≠ [] := by
  induction ls with
  | nil => simp [productLists]
  | cons l t ih =>
    simp only [productLists]
    intro hc
    rcases List.flatMap_eq_nil_iff.mp hc with h1
    have hl : l ≠ [] := h l (List.mem_cons_self l t)
    obtain ⟨x, hx⟩ := List.exists_mem_of_ne_nil l hl
    have := h1 x hx
    rw [List.map_eq_nil_iff] at this
    exact ih (fun l2 hl2 => h l2 (List.mem_cons_of_mem l hl2)) this

theorem getD_of_mem_productLists {α : Type} {ls : List (List α)} {c : List α}
    (h : c ∈ productLists ls) (i : Nat) (hi : i < ls.length) (dflt : α) :
    c.getD i dflt ∈ ls.get ⟨i, hi⟩ := by
  rw [mem_productLists] at h
  induction h generalizing i with
  | nil => simp at hi
  | cons hx hrest ih =>
    match i with
    | 0 => simpa using hx
    | Nat.succ j =>
      simpa using ih j (Nat.lt_of_succ_lt_succ hi)

/-- Build a member of the product with a prescribed value at one position
(all lists must be non-empty to fill the other positions). -/
theorem exists_mem_productLists_with {α : Type} (ls : List (List α)) (hne : ∀ l ∈ ls, l ≠ [])
    (i : Nat) (hi : i < ls.length) {y : α} (hy : y ∈ ls.get ⟨i, hi⟩) (dflt : α) :
    ∃ c ∈ productLists ls, c.getD i dflt = y := by
  induction ls generalizing i with
  | nil => simp at hi
  | cons l t ih =>
    have htne : ∀ l2 ∈ t, l2 ≠ [] := fun l2 h2 => hne l2 (List.mem_cons_of_mem l h2)
    match i with
    | 0 =>
      have hprod := productLists_ne_nil t htne
      obtain ⟨rest, hrest⟩ := List.exists_mem_of_ne_nil _ hprod
      refine ⟨y :: rest, ?_, rfl⟩
      rw [mem_productLists]
      exact List.Forall₂.cons (by simpa using hy) ((mem_productLists t rest).mp hrest)
    | Nat.succ j =>
      have hl : l ≠ [] := hne l (List.mem_cons_self l t)
      obtain ⟨x, hx⟩ := List.exists_mem_of_ne_nil l hl
      obtain ⟨c, hc, hcy⟩ := ih htne j (Nat.lt_of_succ_lt_succ hi) (by simpa using hy)
      refine ⟨x :: c, ?_, by simpa using hcy⟩
      rw [mem_productLists]
      exact List.Forall₂.cons hx ((mem_productLists t c).mp hc)

theorem flatMap_cons_nodup {α : Type} (P : List (List α)) (hP : P.Nodup) :
    ∀ (l : List α), l.Nodup → (l.flatMap (fun x => P.map (fun c => x :: c))).Nodup := by
  intro l
  induction l with
  | nil => simp
  | cons x t ih =>
    intro hnd
    simp only [List.nodup_cons] at hnd
    rw [List.flatMap_cons]
    refine List.Nodup.append ?_ (ih hnd.2) ?_
    · exact List.Nodup.map (fun a b hab => by injection hab) hP
    · intro c hc1 hc2
      simp only [List.mem_map] at hc1
      simp only [List.mem_flatMap, List.mem_map] at hc2
      obtain ⟨c1, _, rfl⟩ := hc1
      obtain ⟨y, hy, c2, _, heq⟩ := hc2
      injection heq with h1 _
      exact hnd.1 (h1 ▸ hy)

theorem productLists_nodup {α : Type} (ls : List (List α)) (h : ∀ l ∈ ls, l.Nodup) :
    (productLists ls).Nodup := by
  induction ls with
  | nil => simp [productLists]
  | cons l t ih =>
    simp only [productLists]
    exact flatMap_cons_nodup _ (ih (fun l2 h2 => h l2 (List.mem_cons_of_mem l h2)))
      l (h l (List.mem_cons_self l t))

/-! ### `Except`-loop traversal lemmas -/

theorem exceptMap_error {ε γ δ : Type} (f : γ → δ) (e : ε) :
    Except.map f (Except.error e) = Except.error e := rfl

theorem exceptMap_ok {ε γ δ : Type} (f : γ → δ) (x : γ) :
    Except.map f (Except.ok x : Except ε γ) = Except.ok (f x) := rfl

theorem exceptPure {ε γ : Type} (x : γ) : (pure x : Except ε γ) = Except.ok x := rfl

theorem exceptBind_error {ε γ δ : Type} (f : γ → Except ε δ) (e : ε) :
    ((Except.error e : Except ε γ) >>= f) = Except.error e := rfl

theorem exceptBind_ok {ε γ δ : Type} (f : γ → Except ε δ) (x : γ) :
    ((Except.ok x : Except ε γ) >>= f) = f x := rfl

theorem exceptFoldList_map_eq_ok {ε α β γ : Type} (g : α → Except ε γ) (h : β → γ → β)
    (w : α → γ) : ∀ (l : List α) (init : β), (∀ x ∈ l, g x = .ok (w x)) →
    exceptFoldList (fun acc x => (g x).map (h acc)) init l =
      .ok (l.foldl (fun acc x => h acc (w x)) init) := by
  intro l
  induction l with
  | nil => intro init _; rfl
  | cons a t ih =>
    intro init hok
    simp only [exceptFoldList, List.foldl_cons]
    rw [hok a (List.mem_cons_self a t), exceptMap_ok]
    exact ih (h init (w a)) (fun x hx => hok x (List.mem_cons_of_mem a hx))

theorem exceptFoldList_map_ok_inv {ε α β γ : Type} (g : α → Except ε γ) (h : β → γ → β) :
    ∀ (l : List α) (init : β) (r : β),
    exceptFoldList (fun acc x => (g x).map (h acc)) init l = .ok r →
    ∀ x ∈ l, ∃ q, g x = .ok q := by
  intro l
  induction l with
  | nil => intro _ _ _ x hx; simp at hx
  | cons a t ih =>
    intro init r hr x hx
    simp only [exceptFoldList] at hr
    cases hga : g a with
    | error e =>
      rw [hga, exceptMap_error] at hr
      replace hr : (Except.error e : Except ε β) = .ok r := hr
      exact absurd hr (by simp)
    | ok q =>
      rw [hga, exceptMap_ok] at hr
      replace hr : exceptFoldList (fun acc x => (g x).map (h acc)) (h init q) t = .ok r := hr
      rcases List.mem_cons.mp hx with rfl | hx2
      · exact ⟨q, hga⟩
      · exact ih (h init q) r hr x hx2

theorem exceptFoldList_map_err {ε α β γ : Type} (g : α → Except ε γ) (h : β → γ → β) :
    ∀ (l : List α) (init : β), (∃ x ∈ l, ∃ e, g x = .error e) →
    ∃ e, exceptFoldList (fun acc x => (g x).map (h acc)) init l = .error e := by
  intro l
  induction l with
  | nil => rintro _ ⟨x, hx, _⟩; simp at hx
  | cons a t ih =>
    rintro init ⟨x, hx, e, he⟩
    simp only [exceptFoldList]
    cases hga : g a with
    | error e2 =>
      exact ⟨e2, rfl⟩
    | ok q =>
      rcases List.mem_cons.mp hx with rfl | hx2
      · rw [hga] at he
        exact absurd he (by simp)
      · obtain ⟨e2, he2⟩ := ih (h init q) ⟨x, hx2, e, he⟩
        exact ⟨e2, he2⟩

theorem exceptMapList_ok_forall₂ {ε α β : Type} (g : α → Except ε β) :
    ∀ (l : List α) (ys : List β), exceptMapList g l = .ok ys →
    List.Forall₂ (fun x y => g x = .ok y) l ys := by
  intro l
  induction l with
  | nil =>
    intro ys h
    replace h : (Except.ok [] : Except ε (List β)) = .ok ys := h
    injection h with h
    subst h
    exact List.Forall₂.nil
  | cons a t ih =>
    intro ys h
    simp only [exceptMapList] at h
    cases hga : g a with
    | error e =>
      rw [hga] at h
      replace h : (Except.error e : Except ε (List β)) = .ok ys := h
      exact absurd h (by simp)
    | ok b =>
      rw [hga] at h
      replace h : Except.map (fun bs => b :: bs) (exceptMapList g t) = Except.ok ys := h
      cases hmt : exceptMapList g t with
      | error e =>
        rw [hmt, exceptMap_error] at h
        exact absurd h (by simp)
      | ok bs =>
        rw [hmt, exceptMap_ok] at h
        injection h with h2
        subst h2
        exact List.Forall₂.cons hga (ih bs hmt)

theorem exceptMapList_ok_of_forall {ε α β : Type} (g : α → Except ε β) (w : α → β) :
    ∀ (l : List α), (∀ x ∈ l, g x = .ok (w x)) → exceptMapList g l = .ok (l.map w) := by
  intro l
  induction l with
  | nil => intro _; rfl
  | cons a t ih =>
    intro hok
    simp only [exceptMapList, List.map_cons]
    rw [hok a (List.mem_cons_self a t)]
    show Except.map (fun bs => w a :: bs) (exceptMapList g t) =
      Except.ok (w a :: List.map w t)
    rw [ih (fun x hx => hok x (List.mem_cons_of_mem a hx)), exceptMap_ok]

theorem exceptMapList_err {ε α β : Type} (g : α → Except ε β) :
    ∀ (l : List α), (∃ x ∈ l, ∃ e, g x = .error e) →
    ∃ e, exceptMapList g l = .error e := by
  intro l
  induction l with
  | nil => rintro ⟨x, hx, _⟩; simp at hx
  | cons a t ih =>
    rintro ⟨x, hx, e, he⟩
    simp only [exceptMapList]
    cases hga : g a with
    | error e2 => exact ⟨e2, rfl⟩
    | ok b =>
      rcases List.mem_cons.mp hx with rfl | hx2
      · rw [hga] at he
        exact absurd he (by simp)
      · obtain ⟨e2, he2⟩ := ih ⟨x, hx2, e, he⟩
        refine ⟨e2, ?_⟩
        show Except.map _ (exceptMapList g t) = Except.error e2
        rw [he2, exceptMap_error]

/-! ### `eventKey` and `Factor.getItem` characterization -/

theorem eventKey_ok_iff (vs : List Var) (e : Event) (key : List Val) :
    eventKey vs e = .ok key ↔ List.Forall₂ (fun u x => dictFind e u = some x) vs key := by
  induction vs generalizing key with
  | nil =>
    simp only [eventKey]
    constructor
    · intro h
      injection h with h
      subst h
      exact List.Forall₂.nil
    · intro h
      cases h
      rfl
  | cons v vs ih =>
    simp only [eventKey]
    cases hv : dictFind e v with
    | none =>
      constructor
      · intro h
        replace h : (Except.error (FactorError.missingVariable v) :
          Except FactorError (List Val)) = .ok key := h
        exact absurd h (by simp)
      · intro h
        cases h with
        | cons h1 _ => rw [hv] at h1; exact absurd h1 (by simp)
    | some x =>
      constructor
      · intro h
        cases hk : eventKey vs e with
        | error err =>
          rw [hk] at h
          replace h : (Except.error err : Except FactorError (List Val)) = .ok key := h
          exact absurd h (by simp)
        | ok rest =>
          rw [hk] at h
          replace h : Except.ok (x :: rest) = Except.ok key := h
          injection h with h
          subst h
          exact List.Forall₂.cons hv ((ih rest).mp hk)
      · intro h
        cases h with
        | cons h1 h2 =>
          rw [hv] at h1
          injection h1 with h1
          subst h1
          show Except.map _ (eventKey vs e) = _
          rw [(ih _).mpr h2]
          rfl

theorem eventKey_error_first (vs : List Var) (e : Event) (pre : List Var) (v : Var)
    (post : List Var) (hvs : vs = pre ++ v :: post)
    (hpre : ∀ u ∈ pre, (dictFind e u).isSome) (hv : dictFind e v = none) :
    eventKey vs e = .error (.missingVariable v) := by
  subst hvs
  induction pre with
  | nil =>
    simp only [List.nil_append, eventKey, hv]
  | cons u pre ih =>
    have hu := hpre u (List.mem_cons_self u pre)
    obtain ⟨x, hx⟩ := Option.isSome_iff_exists.mp hu
    have hrec := ih (fun u2 h2 => hpre u2 (List.mem_cons_of_mem u h2))
    rw [List.cons_append]
    show (match dictFind e u with
      | none => Except.error (FactorError.missingVariable u)
      | some x => (eventKey (pre ++ v :: post) e).map (fun rest => x :: rest)) =
      Except.error (FactorError.missingVariable v)
    rw [hx, hrec]
    rfl

theorem eventKey_zip_self (vs : List Var) (ks : List Val) (hnd : vs.Nodup)
    (hlen : vs.length = ks.length) : eventKey vs (vs.zip ks) = .ok ks := by
  rw [eventKey_ok_iff]
  rw [List.forall₂_iff_get]
  refine ⟨hlen, ?_⟩
  intro i h1 h2
  rw [dictFind_zip_get vs ks hnd hlen i h1]
  exact List.get?_eq_get h2

theorem getItem_of_found (f : Factor) (e : Event) (key : List Val) (q : ℚ)
    (hk : eventKey f.scope e = .ok key) (hq : dictFind f.values key = some q) :
    f.getItem e = .ok q := by
  unfold Factor.getItem
  rw [hk]
  show (match dictFind f.values key with
    | some q => Except.ok q
    | none => Except.error (FactorError.undefinedAssignment e)) = Except.ok q
  rw [hq]

theorem getItem_of_not_found (f : Factor) (e : Event) (key : List Val)
    (hk : eventKey f.scope e = .ok key) (hq : dictFind f.values key = none) :
    f.getItem e = .error (.undefinedAssignment e) := by
  unfold Factor.getItem
  rw [hk]
  show (match dictFind f.values key with
    | some q => Except.ok q
    | none => Except.error (FactorError.undefinedAssignment e)) =
    Except.error (FactorError.undefinedAssignment e)
  rw [hq]

theorem getItem_of_eventKey_error (f : Factor) (e : Event) (err : FactorError)
    (hk : eventKey f.scope e = .error err) : f.getItem e = .error err := by
  unfold Factor.getItem
  rw [hk]

theorem getItem_ok_inv (f : Factor) (e : Event) (q : ℚ) (h : f.getItem e = .ok q) :
    ∃ key, eventKey f.scope e = .ok key ∧ dictFind f.values key = some q := by
  unfold Factor.getItem at h
  cases hk : eventKey f.scope e with
  | error err => rw [hk] at h; exact absurd h (by simp)
  | ok key =>
    rw [hk] at h
    replace h : (match dictFind f.values key with
      | some q => Except.ok q
      | none => Except.error (FactorError.undefinedAssignment e)) = Except.ok q := h
    cases hq : dictFind f.values key with
    | none =>
      rw [hq] at h
      exact absurd h (by simp)
    | some q2 =>
      rw [hq] at h
      replace h : Except.ok q2 = Except.ok q := h
      injection h with h
      subst h
      exact ⟨key, rfl, hq⟩

/-! ### Unfolding the `do`-blocks of the four operations -/

theorem exceptBind_pure_eq_map {ε γ δ : Type} (m : Except ε γ) (f : γ → δ) :
    (m >>= fun x => pure (f x)) = Except.map f m := by
  cases m <;> rfl

theorem multiply_factors_def (fs : List Factor) (d : Domains) :
    multiply_factors fs d =
      Except.map (fun nv => (⟨unionVars fs, nv⟩ : Factor))
        (exceptMapList
          (fun combo => (jointValue fs ((unionVars fs).zip combo)).map
            (fun q => (combo, q)))
          (productLists ((unionVars fs).map d))) := by
  rw [← exceptBind_pure_eq_map]
  rfl

theorem exceptMap_ok_iff {ε γ δ : Type} (f : γ → δ) (m : Except ε γ) (y : δ) :
    Except.map f m = .ok y ↔ ∃ x, m = .ok x ∧ y = f x := by
  cases m with
  | error e => simp [exceptMap_error]
  | ok x =>
    rw [exceptMap_ok]
    constructor
    · intro h
      injection h with h
      exact ⟨x, rfl, h.symm⟩
    · rintro ⟨x2, hx2, rfl⟩
      injection hx2 with hx2
      rw [hx2]

theorem exceptMap_err_iff {ε γ δ : Type} (f : γ → δ) (m : Except ε γ) (e : ε) :
    Except.map f m = .error e ↔ m = .error e := by
  cases m with
  | error e2 => simp [exceptMap_error]
  | ok x => simp [exceptMap_ok]

theorem marginalize_def (factor : Factor) (x : Var) :
    marginalize factor x =
      Except.map (fun nv => (⟨factor.scope.filter (fun u => decide (u ≠ x)), nv⟩ : Factor))
        (exceptMapList
          (fun combo =>
            (exceptFoldList
              (fun acc val => (factor.getItem
                ((factor.scope.filter (fun u => decide (u ≠ x))).zip combo ++ [(x, val)])).map
                (fun q => acc + q))
              0 (possibleValues factor x)).map (fun sumVal => (combo, sumVal)))
          (productLists ((factor.scope.filter (fun u => decide (u ≠ x))).map
            (possibleValues factor)))) := by
  rw [← exceptBind_pure_eq_map]
  rfl

/-! ### Characterizing `multiply_factors` -/

theorem jointValue_ok_of_forall (fs : List Factor) (e : Event) (w : Factor → ℚ)
    (h : ∀ f ∈ fs, f.getItem (restrictEvent f e) = .ok (w f)) :
    jointValue fs e = .ok (fs.map w).prod := by
  unfold jointValue
  rw [exceptFoldList_map_eq_ok (fun f => f.getItem (restrictEvent f e)) (· * ·) w fs 1 h]
  congr 1
  rw [List.prod_eq_foldl, List.foldl_map]

theorem jointValue_err (fs : List Factor) (e : Event)
    (h : ∃ f ∈ fs, ∃ er, f.getItem (restrictEvent f e) = .error er) :
    ∃ er, jointValue fs e = .error er := by
  unfold jointValue
  exact exceptFoldList_map_err (fun f => f.getItem (restrictEvent f e)) (· * ·) fs 1 h

theorem jointValue_ok_inv (fs : List Factor) (e : Event) (q : ℚ)
    (h : jointValue fs e = .ok q) :
    ∀ f ∈ fs, ∃ qf, f.getItem (restrictEvent f e) = .ok qf := by
  unfold jointValue at h
  exact exceptFoldList_map_ok_inv (fun f => f.getItem (restrictEvent f e)) (· * ·) fs 1 q h

theorem forall₂_fst_eq {α β : Type} {R : α → α × β → Prop} {l : List α} {ys : List (α × β)}
    (h : List.Forall₂ R l ys) (hR : ∀ a b, R a b → b.1 = a) : ys.map Prod.fst = l := by
  induction h with
  | nil => rfl
  | cons h1 h2 ih => simp only [List.map_cons, ih, hR _ _ h1]

theorem forall₂_mem_right {α β : Type} {R : α → β → Prop} {l : List α} {ys : List β}
    (h : List.Forall₂ R l ys) (b : β) (hb : b ∈ ys) : ∃ a ∈ l, R a b := by
  induction h with
  | nil => simp at hb
  | cons h1 h2 ih =>
    rcases List.mem_cons.mp hb with rfl | hb2
    · exact ⟨_, List.mem_cons_self _ _, h1⟩
    · obtain ⟨a, ha, hr⟩ := ih hb2
      exact ⟨a, List.mem_cons_of_mem _ ha, hr⟩

theorem multiply_ok_inv (fs : List Factor) (d : Domains) (F : Factor)
    (h : multiply_factors fs d = .ok F) :
    F.scope = unionVars fs ∧
    List.Forall₂
      (fun combo kv => kv.1 = combo ∧ jointValue fs ((unionVars fs).zip combo) = .ok kv.2)
      (productLists ((unionVars fs).map d)) F.values := by
  rw [multiply_factors_def, exceptMap_ok_iff] at h
  obtain ⟨nv, hnv, hF⟩ := h
  subst hF
  refine ⟨rfl, ?_⟩
  have h2 := exceptMapList_ok_forall₂ _ _ _ hnv
  refine List.Forall₂.imp ?_ h2
  intro combo kv hkv
  rw [exceptMap_ok_iff] at hkv
  obtain ⟨q, hq, hkv2⟩ := hkv
  subst hkv2
  exact ⟨rfl, hq⟩

theorem multiply_ok_scope (fs : List Factor) (d : Domains) (F : Factor)
    (h : multiply_factors fs d = .ok F) : F.scope = unionVars fs :=
  (multiply_ok_inv fs d F h).1

theorem multiply_ok_keys (fs : List Factor) (d : Domains) (F : Factor)
    (h : multiply_factors fs d = .ok F) :
    F.values.map Prod.fst = productLists ((unionVars fs).map d) :=
  forall₂_fst_eq (multiply_ok_inv fs d F h).2 (fun a b hab => hab.1)

theorem multiply_ok_entry (fs : List Factor) (d : Domains) (F : Factor)
    (h : multiply_factors fs d = .ok F) :
    ∀ kv ∈ F.values, jointValue fs ((unionVars fs).zip kv.1) = .ok kv.2 := by
  intro kv hkv
  obtain ⟨combo, _, hr⟩ := forall₂_mem_right (multiply_ok_inv fs d F h).2 kv hkv
  rw [hr.1]
  exact hr.2

theorem multiply_ok_dictFind (fs : List Factor) (d : Domains) (F : Factor)
    (h : multiply_factors fs d = .ok F) (combo : List Val)
    (hc : combo ∈ productLists ((unionVars fs).map d)) (q : ℚ)
    (hq : jointValue fs ((unionVars fs).zip combo) = .ok q) :
    dictFind F.values combo = some q := by
  have hmem : combo ∈ F.values.map Prod.fst := by
    rw [multiply_ok_keys fs d F h]
    exact hc
  obtain ⟨v, hv⟩ := dictFind_isSome_of_mem_keys hmem
  have hvmem := dictFind_eq_some_mem hv
  have := multiply_ok_entry fs d F h (combo, v) hvmem
  rw [hq] at this
  injection this with this
  rw [hv, this]

theorem multiply_err_of_joint_err (fs : List Factor) (d : Domains)
    (h : ∃ combo ∈ productLists ((unionVars fs).map d),
      ∃ er, jointValue fs ((unionVars fs).zip combo) = .error er) :
    ∃ er, multiply_factors fs d = .error er := by
  obtain ⟨combo, hc, er, her⟩ := h
  have hbody : ∃ combo2 ∈ productLists ((unionVars fs).map d), ∃ e2,
      (jointValue fs ((unionVars fs).zip combo2)).map
        (fun q => ((combo2, q) : List Val × ℚ)) = .error e2 :=
    ⟨combo, hc, er, by rw [her, exceptMap_error]⟩
  obtain ⟨e2, he2⟩ := exceptMapList_err _ _ hbody
  refine ⟨e2, ?_⟩
  rw [multiply_factors_def, he2, exceptMap_error]

/-! ### Characterizing `marginalize` -/

theorem marginalize_ok_inv (factor : Factor) (x : Var) (g : Factor)
    (h : marginalize factor x = .ok g) :
    g.scope = factor.scope.filter (fun u => decide (u ≠ x)) ∧
    List.Forall₂
      (fun combo kv => kv.1 = combo ∧
        exceptFoldList
          (fun acc val => (factor.getItem
            ((factor.scope.filter (fun u => decide (u ≠ x))).zip combo ++ [(x, val)])).map
            (fun q => acc + q))
          0 (possibleValues factor x) = .ok kv.2)
      (productLists ((factor.scope.filter (fun u => decide (u ≠ x))).map
        (possibleValues factor)))
      g.values := by
  rw [marginalize_def, exceptMap_ok_iff] at h
  obtain ⟨nv, hnv, hF⟩ := h
  subst hF
  refine ⟨rfl, ?_⟩
  have h2 := exceptMapList_ok_forall₂ _ _ _ hnv
  refine List.Forall₂.imp ?_ h2
  intro combo kv hkv
  rw [exceptMap_ok_iff] at hkv
  obtain ⟨q, hq, hkv2⟩ := hkv
  subst hkv2
  exact ⟨rfl, hq⟩

theorem marginalize_ok_scope (factor : Factor) (x : Var) (g : Factor)
    (h : marginalize factor x = .ok g) :
    g.scope = factor.scope.filter (fun u => decide (u ≠ x)) :=
  (marginalize_ok_inv factor x g h).1

theorem marginalize_ok_keys (factor : Factor) (x : Var) (g : Factor)
    (h : marginalize factor x = .ok g) :
    g.values.map Prod.fst =
      productLists ((factor.scope.filter (fun u => decide (u ≠ x))).map
        (possibleValues factor)) :=
  forall₂_fst_eq (marginalize_ok_inv factor x g h).2 (fun a b hab => hab.1)

theorem marginalize_ok_entry (factor : Factor) (x : Var) (g : Factor)
    (h : marginalize factor x = .ok g) :
    ∀ kv ∈ g.values,
      exceptFoldList
        (fun acc val => (factor.getItem
          ((factor.scope.filter (fun u => decide (u ≠ x))).zip kv.1 ++ [(x, val)])).map
          (fun q => acc + q))
        0 (possibleValues factor x) = .ok kv.2 := by
  intro kv hkv
  obtain ⟨combo, _, hr⟩ := forall₂_mem_right (marginalize_ok_inv factor x g h).2 kv hkv
  rw [hr.1]
  exact hr.2

/-- A successful running sum is the sum of the looked-up values. -/
theorem sum_fold_ok_inv (factor : Factor) (x : Var) (vars2 : List Var) (combo : List Val)
    (pv : List Val) (r : ℚ)
    (h : exceptFoldList
      (fun acc val => (factor.getItem (vars2.zip combo ++ [(x, val)])).map
        (fun q => acc + q)) 0 pv = .ok r) :
    ∃ w : Val → ℚ,
      (∀ val ∈ pv, factor.getItem (vars2.zip combo ++ [(x, val)]) = .ok (w val)) ∧
      r = (pv.map w).sum := by
  have hall := exceptFoldList_map_ok_inv
    (fun val => factor.getItem (vars2.zip combo ++ [(x, val)])) (· + ·) pv 0 r h
  have hok : ∀ val ∈ pv, factor.getItem (vars2.zip combo ++ [(x, val)]) =
      .ok (((factor.getItem (vars2.zip combo ++ [(x, val)])).toOption).getD 0) := by
    intro val hval
    obtain ⟨q, hq⟩ := hall val hval
    simp only at hq
    rw [hq]
    rfl
  refine ⟨fun val => ((factor.getItem (vars2.zip combo ++ [(x, val)])).toOption).getD 0,
    hok, ?_⟩
  have heq := exceptFoldList_map_eq_ok
    (fun val => factor.getItem (vars2.zip combo ++ [(x, val)])) (· + ·)
    (fun val => ((factor.getItem (vars2.zip combo ++ [(x, val)])).toOption).getD 0)
    pv 0 hok
  have hfold : exceptFoldList
      (fun acc val => (factor.getItem (vars2.zip combo ++ [(x, val)])).map
        (fun q => acc + q)) 0 pv =
      .ok (pv.foldl (fun acc val =>
        acc + ((factor.getItem (vars2.zip combo ++ [(x, val)])).toOption).getD 0) 0) := heq
  have := h.symm.trans hfold
  injection this with this
  rw [this, List.sum_eq_foldl, List.foldl_map]

/-! ### Claim C2: the `marginalize` contract, corrected for sparse failure -/

/-- C2 counterexample: on a sparse factor, `marginalize` can fail: the
claim says it does not fail. Here B is in the scope and the lookup of the
unseen combination A=0, B=1 raises. -/
theorem marginalize_sparse_fails :
    ("B" ∈ exSparse.scope) ∧
    marginalize exSparse "B" = .error (.undefinedAssignment [("A", "0"), ("B", "1")]) := by
  constructor
  · decide
  · simp [marginalize, exSparse, possibleValues, seenAt, dedupFS, insertIfNew,
      List.enum, List.enumFrom, productLists, Factor.getItem, eventKey, dictFind,
      exceptMapList, exceptFoldList, exceptMap_ok, exceptMap_error, exceptBind_ok,
      exceptBind_error, exceptPure, Except.map_ok, Except.map_error]

/-- C2 (amended): when `marginalize` succeeds on a factor with the variable
in scope, its scope is the input scope minus the variable, its keys are
the combinations of values seen per remaining variable, and each value is
the sum, over every value the removed variable attains in the existing key
tuples, of the input factor's value at the extended assignment. For a
sparse input the traversal may instead fail on an unseen combination (see
the counterexample); values of the removed variable that appear nowhere in
the table are silently omitted from the sum rather than treated as zero. -/
theorem marginalize_spec (factor : Factor) (x : Var) (g : Factor)
    (hx : x ∈ factor.scope) (h : marginalize factor x = .ok g) :
    g.scope = factor.scope.filter (fun u => decide (u ≠ x)) ∧
    g.values.map Prod.fst = productLists (g.scope.map (possibleValues factor)) ∧
    ∀ kv ∈ g.values, ∃ w : Val → ℚ,
      (∀ val ∈ possibleValues factor x,
        factor.getItem (g.scope.zip kv.1 ++ [(x, val)]) = .ok (w val)) ∧
      kv.2 = ((possibleValues factor x).map w).sum := by
  have hscope := marginalize_ok_scope factor x g h
  refine ⟨hscope, ?_, ?_⟩
  · rw [hscope]
    exact marginalize_ok_keys factor x g h
  · intro kv hkv
    have hentry := marginalize_ok_entry factor x g h kv hkv
    rw [← hscope] at hentry
    exact sum_fold_ok_inv factor x g.scope kv.1 (possibleValues factor x) kv.2 hentry

/-- Witness for C2 at the spec's worked example: marginalizing B out of the
fully-populated two-variable factor succeeds, and the claim's conclusions
hold at the result. -/
theorem marginalize_spec_witness :
    ("B" ∈ exF1.scope) ∧
    (⟨["A"], [(["0"], 3/10), (["1"], 7/10)]⟩ : Factor).scope =
      exF1.scope.filter (fun u => decide (u ≠ "B")) :=
  ⟨by decide,
    (marginalize_spec exF1 "B" ⟨["A"], [(["0"], 3/10), (["1"], 7/10)]⟩ (by decide)
      (by simp [marginalize, exF1, possibleValues, seenAt, dedupFS, insertIfNew,
        List.enum, List.enumFrom, productLists, Factor.getItem, eventKey, dictFind,
        exceptMapList, exceptFoldList, exceptMap_ok, exceptMap_error, exceptBind_ok,
        exceptBind_error, exceptPure, Except.map_ok, Except.map_error]
        <;> norm_num)).1⟩

/-! ### Claim C1: full specification of `multiply_factors` -/

/-- C1: for a non-empty sequence of factors (domains total, hence covering),
a successful multiply returns a factor whose scope is the ordered
first-appearance union of the input scopes, whose keys are exactly the
cartesian product of the domains of that union scope, and whose value at
each joint assignment is the product of every input factor's value at its
own restriction of that assignment; if some input factor does not support
its restriction of some joint assignment, the whole multiply fails. -/
theorem multiply_factors_correct (fs : List Factor) (d : Domains) (hne : fs ≠ []) :
    (∀ F, multiply_factors fs d = .ok F →
      F.scope = unionVars fs ∧
      F.values.map Prod.fst = productLists ((unionVars fs).map d) ∧
      ∀ combo ∈ productLists ((unionVars fs).map d), ∀ w : Factor → ℚ,
        (∀ f ∈ fs, f.getItem (restrictEvent f ((unionVars fs).zip combo)) = .ok (w f)) →
        dictFind F.values combo = some (fs.map w).prod) ∧
    ((∃ combo ∈ productLists ((unionVars fs).map d), ∃ f ∈ fs, ∃ er,
        f.getItem (restrictEvent f ((unionVars fs).zip combo)) = .error er) →
      ∃ er, multiply_factors fs d = .error er) := by
  constructor
  · intro F hF
    refine ⟨multiply_ok_scope fs d F hF, multiply_ok_keys fs d F hF, ?_⟩
    intro combo hc w hw
    exact multiply_ok_dictFind fs d F hF combo hc _ (jointValue_ok_of_forall fs _ w hw)
  · rintro ⟨combo, hc, f, hf, er, her⟩
    obtain ⟨er2, her2⟩ := jointValue_err fs _ ⟨f, hf, er, her⟩
    exact multiply_err_of_joint_err fs d ⟨combo, hc, er2, her2⟩

/-- Evaluation of the example product (rational arithmetic closed by
`norm_num`, which `decide` cannot evaluate). -/
theorem exMultiplyAB_eval : multiply_factors [exFA, exFB] exDomains = .ok exProdAB := by
  simp [multiply_factors, unionVars, insertIfNew, exFA, exFB, exDomains, exProdAB,
    productLists, jointValue, restrictEvent, Factor.getItem, eventKey, dictFind,
    exceptMapList, exceptFoldList, exceptMap_ok, exceptMap_error, exceptBind_ok,
    exceptBind_error, exceptPure, Except.map_ok, Except.map_error]
  all_goals norm_num

/-- Witness for C1 at a concrete two-factor network: the hypotheses are
satisfiable and the conclusion yields the concrete product's scope. -/
theorem multiply_factors_correct_witness :
    ([exFA, exFB] : List Factor) ≠ [] ∧ exProdAB.scope = unionVars [exFA, exFB] :=
  ⟨by simp,
    ((multiply_factors_correct [exFA, exFB] exDomains (by simp)).1 _ exMultiplyAB_eval).1⟩

/-! ### Claim C10: multiply of the empty sequence -/

/-- C10: `multiply_factors` on the empty factor list does not fail: it
returns the factor with empty scope mapping the empty tuple to 1. -/
theorem multiply_factors_empty (d : Domains) :
    multiply_factors [] d = .ok ⟨[], [([], 1)]⟩ := rfl

/-! ### Claim C6: `Factor.__getitem__` lookup contract -/

/-- C6: a lookup first scans the scope in order and fails with
`missingVariable` at the first scope variable the event lacks; with all
scope variables present, the key tuple is formed in scope order and either
found (returning the stored value) or reported as `undefinedAssignment`
carrying the full event. -/
theorem factor_lookup_spec (f : Factor) (e : Event) :
    (∀ pre v post, f.scope = pre ++ v :: post →
      (∀ u ∈ pre, (dictFind e u).isSome) → dictFind e v = none →
      f.getItem e = .error (.missingVariable v)) ∧
    (∀ key : List Val, List.Forall₂ (fun u x => dictFind e u = some x) f.scope key →
      (dictFind f.values key = none → f.getItem e = .error (.undefinedAssignment e)) ∧
      (∀ q, dictFind f.values key = some q → f.getItem e = .ok q)) := by
  constructor
  · intro pre v post hs hpre hv
    exact getItem_of_eventKey_error f e _ (eventKey_error_first f.scope e pre v post hs hpre hv)
  · intro key hkey
    have hk : eventKey f.scope e = .ok key := (eventKey_ok_iff f.scope e key).mpr hkey
    exact ⟨fun hnone => getItem_of_not_found f e key hk hnone,
      fun q hq => getItem_of_found f e key q hk hq⟩

/-- Witness for C6: the example factor, given an event lacking B, fails
with `missingVariable B`. -/
theorem factor_lookup_spec_witness :
    exF1.getItem [("A", "0")] = .error (.missingVariable "B") :=
  (factor_lookup_spec exF1 [("A", "0")]).1 ["A"] "B" [] rfl (by decide) (by decide)

/-! ### Claim C7: `eliminate` is the identity when no factor mentions the variable -/

/-- C7: if no factor of the network mentions the variable, `eliminate`
returns the very same network (same factor list, same domains). -/
theorem eliminate_noop (b : BayesianNetwork) (x : Var)
    (h : ∀ f ∈ b.factors, x ∉ f.scope) : eliminate b x = .ok b := by
  unfold eliminate
  have hfil : b.factors.filter (fun f => decide (x ∈ f.scope)) = [] := by
    rw [List.filter_eq_nil]
    intro f hf
    simpa using h f hf
  rw [hfil]
  rfl

/-- Witness for C7: eliminating a variable absent from the example network
returns the identical network. -/
theorem eliminate_noop_witness : eliminate exNet "C" = .ok exNet :=
  eliminate_noop exNet "C" (by decide)

/-! ### Claim C8: multiply of a single factor -/

theorem map_dictFind_self {α β : Type} [DecidableEq α] (d₀ : β) :
    ∀ (l : List (α × β)), (l.map Prod.fst).Nodup →
    (l.map Prod.fst).map (fun k => (k, (dictFind l k).getD d₀)) = l := by
  intro l
  induction l with
  | nil => intro _; rfl
  | cons p rest ih =>
    obtain ⟨k, v⟩ := p
    intro hnd
    simp only [List.map_cons] at hnd ⊢
    rw [List.nodup_cons] at hnd
    have hh : dictFind ((k, v) :: rest) k = some v := by rw [dictFind_cons, if_pos rfl]
    rw [hh]
    have hcongr : ∀ k2 ∈ rest.map Prod.fst,
        ((k2, (dictFind ((k, v) :: rest) k2).getD d₀) : α × β) =
        (k2, (dictFind rest k2).getD d₀) := by
      intro k2 hk2
      have hne : k ≠ k2 := fun hc => hnd.1 (hc ▸ hk2)
      rw [dictFind_cons, if_neg hne]
    rw [List.map_congr_left hcongr, ih hnd.2]
    simp

theorem filterMap_dict_self (vs : List Var) (ks : List Val) (hnd : vs.Nodup)
    (hlen : vs.length = ks.length) (e : Event)
    (hdict : ∀ i (hi : i < vs.length), dictFind e (vs.get ⟨i, hi⟩) = ks.get? i) :
    vs.filterMap (fun u => (dictFind e u).map (fun val => (u, val))) = vs.zip ks := by
  induction vs generalizing ks with
  | nil =>
    match ks with
    | [] => rfl
    | k :: kt => simp at hlen
  | cons v rest ih =>
    match ks with
    | [] => simp at hlen
    | k :: kt =>
      have h0 := hdict 0 (by simp)
      simp only [List.get] at h0
      have h0v : dictFind e v = some k := by simpa using h0
      simp only [List.length_cons, Nat.succ.injEq] at hlen
      rw [List.filterMap_cons, h0v]
      show ((v, k) ::
        rest.filterMap (fun u => (dictFind e u).map (fun val => (u, val))) : Event) =
        (v, k) :: rest.zip kt
      refine congrArg (List.cons (v, k)) (ih kt hnd.of_cons hlen ?_)
      intro i hi
      have := hdict (i + 1) (by simpa using Nat.succ_lt_succ hi)
      simpa using this

theorem restrictEvent_zip_self (F : Factor) (combo : List Val) (hnd : F.scope.Nodup)
    (hlen : F.scope.length = combo.length) :
    restrictEvent F (F.scope.zip combo) = F.scope.zip combo := by
  unfold restrictEvent
  exact filterMap_dict_self F.scope combo hnd hlen _
    (fun i hi => dictFind_zip_get F.scope combo hnd hlen i hi)

/-- C8 counterexample: multiplying the single-element list holding a sparse
factor is not a no-op: it fails outright, because the full cartesian
product of the domains is enumerated and the unseen assignment A=1 is
looked up. -/
theorem multiply_single_sparse_fails :
    multiply_factors [⟨["A"], [(["0"], 1)]⟩] exDomains =
      .error (.undefinedAssignment [("A", "1")]) := by
  simp [multiply_factors, unionVars, insertIfNew, exDomains, productLists,
    jointValue, restrictEvent, Factor.getItem, eventKey, dictFind,
    exceptMapList, exceptFoldList, exceptMap_ok, exceptMap_error, exceptBind_ok,
    exceptBind_error, exceptPure, Except.map_ok, Except.map_error]

/-- C8 (amended): for a fully-populated factor — distinct scope variables,
value-table keys exactly the cartesian product of the scope's domains, no
duplicate keys — multiplying the single-element sequence is a no-op: the
result is the factor itself, same scope and same table. For a sparse
factor the multiply instead fails (see the counterexample). -/
theorem multiply_single_identity (F : Factor) (d : Domains)
    (hnd : F.scope.Nodup)
    (hkeys : F.values.map Prod.fst = productLists (F.scope.map d))
    (hknd : (F.values.map Prod.fst).Nodup) :
    multiply_factors [F] d = .ok F := by
  have huv : unionVars [F] = F.scope := unionVars_single_of_nodup F hnd
  rw [multiply_factors_def, huv]
  have hbody : ∀ combo ∈ productLists (F.scope.map d),
      (jointValue [F] (F.scope.zip combo)).map (fun q => ((combo, q) : List Val × ℚ)) =
      .ok (combo, (dictFind F.values combo).getD 0) := by
    intro combo hc
    have hlen : F.scope.length = combo.length := by
      have h1 := length_of_mem_productLists hc
      rw [List.length_map] at h1
      exact h1.symm
    have hek : eventKey F.scope (F.scope.zip combo) = .ok combo :=
      eventKey_zip_self _ _ hnd hlen
    have hmem : combo ∈ F.values.map Prod.fst := by rw [hkeys]; exact hc
    obtain ⟨q, hq⟩ := dictFind_isSome_of_mem_keys hmem
    have hget : F.getItem (F.scope.zip combo) = .ok q := getItem_of_found F _ combo q hek hq
    have hjv : jointValue [F] (F.scope.zip combo) = .ok (1 * q) := by
      unfold jointValue
      simp only [exceptFoldList]
      rw [restrictEvent_zip_self F combo hnd hlen, hget, exceptMap_ok]
    rw [hjv, exceptMap_ok, hq]
    simp
  rw [exceptMapList_ok_of_forall _ _ _ hbody]
  have hvals : (productLists (F.scope.map d)).map
      (fun c => (c, (dictFind F.values c).getD 0)) = F.values := by
    rw [← hkeys]
    exact map_dictFind_self 0 F.values hknd
  rw [hvals, exceptMap_ok]

/-- Witness for C8: multiplying the single fully-populated example factor
returns it unchanged. -/
theorem multiply_single_identity_witness :
    multiply_factors [exF1] exDomains = .ok exF1 :=
  multiply_single_identity exF1 exDomains (by decide) (by decide) (by decide)

/-! ### Claim C3: the `eliminate` contract in the non-trivial case -/

theorem exceptBind_ok_inv {ε γ δ : Type} (m : Except ε γ) (k : γ → Except ε δ) (y : δ)
    (h : (m >>= k) = .ok y) : ∃ x, m = .ok x ∧ k x = .ok y := by
  cases m with
  | error e =>
    rw [exceptBind_error] at h
    exact absurd h (by simp)
  | ok x =>
    rw [exceptBind_ok] at h
    exact ⟨x, rfl, h⟩

theorem eliminate_ok_inv (b : BayesianNetwork) (x : Var) (net : BayesianNetwork)
    (hsome : ∃ f ∈ b.factors, x ∈ f.scope) (h : eliminate b x = .ok net) :
    ∃ P M,
      multiply_factors (b.factors.filter (fun f => decide (x ∈ f.scope))) b.domains = .ok P ∧
      marginalize P x = .ok M ∧
      net.factors = b.factors.filter (fun f => decide (x ∉ f.scope)) ++ [M] ∧
      net.domains = b.domains := by
  obtain ⟨f, hf, hx⟩ := hsome
  have hne : b.factors.filter (fun f => decide (x ∈ f.scope)) ≠ [] := by
    apply List.ne_nil_of_mem (a := f)
    rw [List.mem_filter]
    exact ⟨hf, by simpa using hx⟩
  have hemp : (b.factors.filter (fun f => decide (x ∈ f.scope))).isEmpty = false := by
    simpa using hne
  unfold eliminate at h
  simp only [hemp, Bool.false_eq_true, if_false] at h
  obtain ⟨P, hm, h2⟩ := exceptBind_ok_inv _ _ _ h
  obtain ⟨M, hg, h3⟩ := exceptBind_ok_inv _ _ _ h2
  rw [exceptPure] at h3
  injection h3 with h3
  subst h3
  exact ⟨P, M, hm, hg, rfl, rfl⟩

/-- C3: when some factor mentions the variable, a successful `eliminate`
returns a network whose factor list is exactly the factors not mentioning
the variable, in their original order, followed last by the marginalized
product of the factors that do mention it; the domains are unchanged, and
no factor of the result mentions the variable. -/
theorem eliminate_spec (b : BayesianNetwork) (x : Var) (net : BayesianNetwork)
    (hsome : ∃ f ∈ b.factors, x ∈ f.scope) (h : eliminate b x = .ok net) :
    (∃ P M,
      multiply_factors (b.factors.filter (fun f => decide (x ∈ f.scope))) b.domains = .ok P ∧
      marginalize P x = .ok M ∧
      net.factors = b.factors.filter (fun f => decide (x ∉ f.scope)) ++ [M]) ∧
    net.domains = b.domains ∧
    (∀ f ∈ net.factors, x ∉ f.scope) := by
  obtain ⟨P, M, hm, hg, hfac, hdom⟩ := eliminate_ok_inv b x net hsome h
  refine ⟨⟨P, M, hm, hg, hfac⟩, hdom, ?_⟩
  intro f hfmem
  rw [hfac] at hfmem
  rcases List.mem_append.mp hfmem with hin | hin
  · rw [List.mem_filter] at hin
    simpa using hin.2
  · rw [List.mem_singleton] at hin
    subst hin
    rw [marginalize_ok_scope P x f hg]
    intro hc
    rw [List.mem_filter] at hc
    simp at hc

/-- Evaluation of `eliminate` on the example network at B. -/
theorem exEliminateB_eval : eliminate exNet "B" = .ok exNetElimB := by
  simp [eliminate, exNet, exNetElimB, exFA, exFB, exDomains, multiply_factors, marginalize,
    unionVars, insertIfNew, productLists, jointValue, restrictEvent, Factor.getItem,
    eventKey, dictFind, possibleValues, seenAt, dedupFS, List.enum, List.enumFrom,
    exceptMapList, exceptFoldList, exceptMap_ok, exceptMap_error, exceptBind_ok,
    exceptBind_error, exceptPure, Except.map_ok, Except.map_error]
  all_goals norm_num

/-- Witness for C3: eliminating B from the example network leaves the
domains unchanged. -/
theorem eliminate_spec_witness : exNetElimB.domains = exNet.domains :=
  (eliminate_spec exNet "B" exNetElimB ⟨exFB, by simp [exNet], by decide⟩
    exEliminateB_eval).2.1

/-! ### Dict-merge lemmas and the `compute_conditional` contract -/

theorem not_mem_keys_of_dictFind_none {α β : Type} [DecidableEq α] {l : List (α × β)} {k : α}
    (h : dictFind l k = none) : k ∉ l.map Prod.fst := by
  intro hmem
  obtain ⟨v, hv⟩ := dictFind_isSome_of_mem_keys hmem
  rw [h] at hv
  exact absurd hv (by simp)

theorem dictFind_map_overlay (a bb : Event) (k : Var) (w : Val)
    (h : dictFind a k = some w) :
    dictFind (a.map (fun kv => (kv.1, (dictFind bb kv.1).getD kv.2))) k =
      some ((dictFind bb k).getD w) := by
  induction a with
  | nil => simp [dictFind] at h
  | cons kv t ih =>
    obtain ⟨k1, v1⟩ := kv
    rw [List.map_cons, dictFind_cons]
    rw [dictFind_cons] at h
    by_cases hk : k1 = k
    · subst hk
      rw [if_pos rfl] at h ⊢
      injection h with h
      subst h
      rfl
    · rw [if_neg hk] at h ⊢
      exact ih h

theorem dictFind_overlay_none (a bb : Event) (k : Var) (h : dictFind a k = none) :
    dictFind (a.map (fun kv => (kv.1, (dictFind bb kv.1).getD kv.2))) k = none := by
  apply dictFind_eq_none_of_not_mem_keys
  have hkeys : (a.map (fun kv => (kv.1, (dictFind bb kv.1).getD kv.2))).map Prod.fst =
      a.map Prod.fst := by
    rw [List.map_map]
    rfl
  rw [hkeys]
  exact not_mem_keys_of_dictFind_none h

theorem dictFind_filter_none (a bb : Event) (k : Var) (hnone : dictFind a k = none) :
    dictFind (bb.filter (fun kv => (dictFind a kv.1).isNone)) k = dictFind bb k := by
  induction bb with
  | nil => rfl
  | cons kv t ih =>
    obtain ⟨k2, v2⟩ := kv
    rw [List.filter_cons]
    by_cases hk2 : k2 = k
    · subst hk2
      rw [dictFind_cons, if_pos rfl]
      have : (dictFind a k2).isNone = true := by rw [hnone]; rfl
      rw [this]
      simp only [if_true]
      rw [dictFind_cons, if_pos rfl]
    · rw [dictFind_cons, if_neg hk2]
      cases hp : (dictFind a k2).isNone with
      | true =>
        simp only [if_true]
        rw [dictFind_cons, if_neg hk2]
        exact ih
      | false =>
        simp only [Bool.false_eq_true, if_false]
        exact ih

/-- On a key carried by the evidence, the merged event takes the evidence
value (evidence wins). -/
theorem dictMerge_evidence_wins (a bb : Event) (k : Var) (v : Val)
    (h : dictFind bb k = some v) : dictFind (dictMerge a bb) k = some v := by
  unfold dictMerge
  rw [dictFind_append]
  cases ha : dictFind a k with
  | some w =>
    rw [dictFind_map_overlay a bb k w ha]
    show some ((dictFind bb k).getD w) = some v
    rw [h]
    rfl
  | none =>
    rw [dictFind_overlay_none a bb k ha]
    show dictFind (bb.filter (fun kv => (dictFind a kv.1).isNone)) k = some v
    rw [dictFind_filter_none a bb k ha, h]

/-- On a key the evidence does not carry, the merged event falls back to
the event's value (event applied first). -/
theorem dictMerge_event_fallback (a bb : Event) (k : Var) (h : dictFind bb k = none) :
    dictFind (dictMerge a bb) k = dictFind a k := by
  unfold dictMerge
  rw [dictFind_append]
  cases ha : dictFind a k with
  | some w =>
    rw [dictFind_map_overlay a bb k w ha]
    show some ((dictFind bb k).getD w) = some w
    rw [h]
    rfl
  | none =>
    rw [dictFind_overlay_none a bb k ha]
    show dictFind (bb.filter (fun kv => (dictFind a kv.1).isNone)) k = none
    rw [dictFind_filter_none a bb k ha, h]

/-- The value of `compute_conditional` once the two marginal computations
and their lookups are known. -/
theorem compute_conditional_ok_of (b : BayesianNetwork) (event evidence : Event)
    (jF eF : Factor) (jp ep : ℚ)
    (h1 : compute_marginal b ((dictMerge event evidence).map Prod.fst) = .ok jF)
    (h2 : jF.getItem (dictMerge event evidence) = .ok jp)
    (h3 : compute_marginal b (evidence.map Prod.fst) = .ok eF)
    (h4 : eF.getItem evidence = .ok ep) :
    compute_conditional b event evidence =
      (if ep = 0 then .ok 0 else .ok (jp / ep)) := by
  unfold compute_conditional
  simp only [h1, h2, h3, h4, exceptBind_ok]
  by_cases hep : ep = 0
  · rw [if_pos hep, if_pos hep]
    rfl
  · rw [if_neg hep, if_neg hep]
    rfl

/-! ### Claim C4: `compute_conditional` combines event and evidence -/

/-- C4: the merged event gives the evidence value on every key the
evidence carries (evidence wins) and the event value otherwise; the joint
probability is the merged event's lookup in the marginal over the merged
keys, the evidence probability is the evidence's lookup in the marginal
over the evidence keys, and with nonzero evidence probability the result
is their quotient. -/
theorem compute_conditional_spec (b : BayesianNetwork) (event evidence : Event)
    (jF eF : Factor) (jp ep : ℚ)
    (h1 : compute_marginal b ((dictMerge event evidence).map Prod.fst) = .ok jF)
    (h2 : jF.getItem (dictMerge event evidence) = .ok jp)
    (h3 : compute_marginal b (evidence.map Prod.fst) = .ok eF)
    (h4 : eF.getItem evidence = .ok ep)
    (h5 : ep ≠ 0) :
    compute_conditional b event evidence = .ok (jp / ep) ∧
    (∀ k v, dictFind evidence k = some v → dictFind (dictMerge event evidence) k = some v) ∧
    (∀ k, dictFind evidence k = none →
      dictFind (dictMerge event evidence) k = dictFind event k) := by
  refine ⟨?_, fun k v hv => dictMerge_evidence_wins event evidence k v hv,
    fun k hk => dictMerge_event_fallback event evidence k hk⟩
  rw [compute_conditional_ok_of b event evidence jF eF jp ep h1 h2 h3 h4, if_neg h5]

/-- Evaluation of the joint marginal of the single-factor example network
over A. -/
theorem exNetAMarginalA_eval :
    compute_marginal exNetA ["A"] = .ok ⟨["A"], [(["0"], 1/2), (["1"], 1/2)]⟩ := by
  simp [compute_marginal, networkVariables, eliminate, exNetA, exDomains, multiply_factors,
    marginalize, unionVars, insertIfNew, productLists, jointValue, restrictEvent,
    Factor.getItem, eventKey, dictFind, possibleValues, seenAt, dedupFS, List.enum,
    List.enumFrom, exceptMapList, exceptFoldList, exceptMap_ok, exceptMap_error,
    exceptBind_ok, exceptBind_error, exceptPure, Except.map_ok, Except.map_error]
  all_goals norm_num

/-- Evaluation of the evidence marginal of the single-factor example
network over no variables: A is eliminated away. -/
theorem exNetAMarginalEmpty_eval :
    compute_marginal exNetA [] = .ok ⟨[], [([], 1)]⟩ := by
  simp [compute_marginal, networkVariables, eliminate, exNetA, exDomains, multiply_factors,
    marginalize, unionVars, insertIfNew, productLists, jointValue, restrictEvent,
    Factor.getItem, eventKey, dictFind, possibleValues, seenAt, dedupFS, List.enum,
    List.enumFrom, exceptMapList, exceptFoldList, exceptMap_ok, exceptMap_error,
    exceptBind_ok, exceptBind_error, exceptPure, Except.map_ok, Except.map_error]
  all_goals norm_num

/-- Witness for C4: conditioning the uniform single-variable network on
empty evidence returns the marginal probability divided by one. -/
theorem compute_conditional_spec_witness :
    compute_conditional exNetA [("A", "0")] [] = .ok ((1/2 : ℚ) / 1) :=
  (compute_conditional_spec exNetA [("A", "0")] []
    ⟨["A"], [(["0"], 1/2), (["1"], 1/2)]⟩ ⟨[], [([], 1)]⟩ (1/2) 1
    exNetAMarginalA_eval
    (by simp [Factor.getItem, eventKey, dictFind, dictMerge, exceptMap_ok])
    exNetAMarginalEmpty_eval
    (by simp [Factor.getItem, eventKey, dictFind])
    (by norm_num)).1

/-! ### Claim C5: the zero-evidence guard, corrected for lookup failures -/

/-- Evaluation of the evidence marginal of the two-factor example network
over A: the probability of A=1 is exactly 0. -/
theorem exNetMarginalA_eval :
    compute_marginal exNet ["A"] = .ok ⟨["A"], [(["0"], 1), (["1"], 0)]⟩ := by
  simp [compute_marginal, networkVariables, eliminate, exNet, exFA, exFB, exDomains,
    multiply_factors, marginalize, unionVars, insertIfNew, productLists, jointValue,
    restrictEvent, Factor.getItem, eventKey, dictFind, possibleValues, seenAt, dedupFS,
    List.enum, List.enumFrom, exceptMapList, exceptFoldList, exceptMap_ok, exceptMap_error,
    exceptBind_ok, exceptBind_error, exceptPure, Except.map_ok, Except.map_error]
  all_goals norm_num

/-- C5 counterexample: evidence A=1 has evidence marginal probability
exactly 0, yet `compute_conditional` raises an `undefinedAssignment` (from
the joint lookup, computed first) instead of returning 0. -/
theorem compute_conditional_zero_evidence_raises :
    (compute_marginal exNet (([("A", "1")] : Event).map Prod.fst) = .ok
      ⟨["A"], [(["0"], 1), (["1"], 0)]⟩ ∧
     (Factor.mk ["A"] [(["0"], 1), (["1"], 0)]).getItem [("A", "1")] = .ok 0) ∧
    compute_conditional exNet [("B", "bad")] [("A", "1")] =
      .error (.undefinedAssignment [("B", "bad"), ("A", "1")]) := by
  refine ⟨⟨exNetMarginalA_eval, by simp [Factor.getItem, eventKey, dictFind, exceptMap_ok]⟩, ?_⟩
  simp [compute_conditional, dictMerge, compute_marginal, networkVariables, eliminate,
    exNet, exFA, exFB, exDomains, multiply_factors, marginalize, unionVars, insertIfNew,
    productLists, jointValue, restrictEvent, Factor.getItem, eventKey, dictFind,
    possibleValues, seenAt, dedupFS, List.enum, List.enumFrom, exceptMapList,
    exceptFoldList, exceptMap_ok, exceptMap_error, exceptBind_ok, exceptBind_error,
    exceptPure, Except.map_ok, Except.map_error]
  all_goals norm_num

/-- C5 (amended): when both marginal computations and both lookups
themselves succeed and the evidence probability is exactly 0,
`compute_conditional` returns exactly 0 rather than failing; but evidence
assignments absent from CPT support make a lookup fail first, and that
error propagates instead (see the counterexample). -/
theorem compute_conditional_zero (b : BayesianNetwork) (event evidence : Event)
    (jF eF : Factor) (jp : ℚ)
    (h1 : compute_marginal b ((dictMerge event evidence).map Prod.fst) = .ok jF)
    (h2 : jF.getItem (dictMerge event evidence) = .ok jp)
    (h3 : compute_marginal b (evidence.map Prod.fst) = .ok eF)
    (h4 : eF.getItem evidence = .ok 0) :
    compute_conditional b event evidence = .ok 0 := by
  rw [compute_conditional_ok_of b event evidence jF eF jp 0 h1 h2 h3 h4]
  simp

/-- Witness for C5: evidence A=1 with full-support tables (event B=0)
yields exactly 0. -/
theorem compute_conditional_zero_witness :
    compute_conditional exNet [("B", "0")] [("A", "1")] = .ok 0 :=
  compute_conditional_zero exNet [("B", "0")] [("A", "1")]
    ⟨["A", "B"], [(["0", "0"], 1/2), (["0", "1"], 1/2), (["1", "0"], 0), (["1", "1"], 0)]⟩
    ⟨["A"], [(["0"], 1), (["1"], 0)]⟩ 0
    (by simp [compute_marginal, networkVariables, eliminate, exNet, exFA, exFB, exDomains,
      multiply_factors, marginalize, unionVars, insertIfNew, productLists, jointValue,
      restrictEvent, Factor.getItem, eventKey, dictFind, possibleValues, seenAt, dedupFS,
      List.enum, List.enumFrom, exceptMapList, exceptFoldList, exceptMap_ok,
      exceptMap_error, exceptBind_ok, exceptBind_error, exceptPure, Except.map_ok,
      Except.map_error, dictMerge]
      <;> norm_num)
    (by simp [Factor.getItem, eventKey, dictFind, dictMerge, exceptMap_ok])
    exNetMarginalA_eval
    (by simp [Factor.getItem, eventKey, dictFind, exceptMap_ok])

/-! ### Claim C9: every factor that multiply produces is fully populated -/

theorem dedupFS_nodup {α : Type} [DecidableEq α] (l : List α) : (dedupFS l).Nodup :=
  foldl_insertIfNew_nodup l List.nodup_nil

theorem seenAt_nodup (P : Factor) (i : Nat) : (seenAt P i).Nodup :=
  dedupFS_nodup _

/-- With a fully-populated table (and non-empty domains), the values seen
at position `i` are exactly the domain of the `i`-th scope variable. -/
theorem mem_seenAt_iff (P : Factor) (d : Domains)
    (hkeys : P.values.map Prod.fst = productLists (P.scope.map d))
    (hne : ∀ u, d u ≠ []) (i : Nat) (hi : i < P.scope.length) (y : Val) :
    y ∈ seenAt P i ↔ y ∈ d (P.scope.get ⟨i, hi⟩) := by
  unfold seenAt
  rw [mem_dedupFS, List.mem_map]
  have him : i < (P.scope.map d).length := by simpa using hi
  constructor
  · rintro ⟨kv, hkv, rfl⟩
    have hk : kv.1 ∈ P.values.map Prod.fst := List.mem_map_of_mem Prod.fst hkv
    rw [hkeys] at hk
    have := getD_of_mem_productLists hk i him ""
    rwa [List.get_map] at this
  · intro hy
    have hne2 : ∀ l ∈ P.scope.map d, l ≠ [] := by
      intro l hl
      obtain ⟨u, _, rfl⟩ := List.mem_map.mp hl
      exact hne u
    have hy2 : y ∈ (P.scope.map d).get ⟨i, him⟩ := by
      rw [List.get_map]
      exact hy
    obtain ⟨c, hc, hcy⟩ := exists_mem_productLists_with (P.scope.map d) hne2 i him hy2 ""
    rw [← hkeys] at hc
    obtain ⟨kv, hkv, hkvc⟩ := List.mem_map.mp hc
    exact ⟨kv, hkv, by rw [hkvc, hcy]⟩

theorem dictFind_enumFrom_table (g : Nat → List Val) :
    ∀ (vs : List Var) (n : Nat), vs.Nodup → ∀ i (hi : i < vs.length),
    dictFind ((vs.enumFrom n).map (fun p => (p.2, g p.1))) (vs.get ⟨i, hi⟩) =
      some (g (n + i)) := by
  intro vs
  induction vs with
  | nil => intro n _ i hi; simp at hi
  | cons v rest ih =>
    intro n hnd i hi
    rw [List.nodup_cons] at hnd
    match i with
    | 0 =>
      show dictFind ((v, g n) :: (rest.enumFrom (n + 1)).map (fun p => (p.2, g p.1))) v =
        some (g (n + 0))
      rw [dictFind_cons, if_pos rfl, Nat.add_zero]
    | Nat.succ j =>
      have hj : j < rest.length := Nat.lt_of_succ_lt_succ hi
      have hne : v ≠ rest.get ⟨j, hj⟩ := fun hc => hnd.1 (hc ▸ List.get_mem rest _ _)
      show dictFind ((v, g n) :: (rest.enumFrom (n + 1)).map (fun p => (p.2, g p.1)))
        (rest.get ⟨j, hj⟩) = some (g (n + (j + 1)))
      rw [dictFind_cons, if_neg hne, ih (n + 1) hnd.2 j hj,
        show n + 1 + j = n + (j + 1) from by omega]

/-- For a factor with distinct scope variables, the `possibleValues` of
the `i`-th scope variable are the values seen at position `i`. -/
theorem possibleValues_eq_seenAt (P : Factor) (hnd : P.scope.Nodup) (i : Nat)
    (hi : i < P.scope.length) :
    possibleValues P (P.scope.get ⟨i, hi⟩) = seenAt P i := by
  unfold possibleValues
  have hkeys : ((P.scope.enum.map (fun p => (p.2, seenAt P p.1))).map Prod.fst) = P.scope := by
    rw [List.map_map]
    exact List.enum_map_snd P.scope
  rw [dictFind_reverse _ (by rw [hkeys]; exact hnd)]
  have := dictFind_enumFrom_table (seenAt P) P.scope 0 hnd i hi
  rw [show P.scope.enum = P.scope.enumFrom 0 from rfl, this]
  simp

theorem forall₂_map_same {α β : Type} (R : β → β → Prop) (f g : α → β) (l : List α)
    (h : ∀ x ∈ l, R (f x) (g x)) : List.Forall₂ R (l.map f) (l.map g) := by
  induction l with
  | nil => exact List.Forall₂.nil
  | cons a t ih =>
    exact List.Forall₂.cons (h a (List.mem_cons_self a t))
      (ih (fun x hx => h x (List.mem_cons_of_mem a hx)))

theorem forall₂_mem_congr {α : Type} {ls1 ls2 : List (List α)}
    (h : List.Forall₂ (fun l1 l2 => ∀ y, y ∈ l1 ↔ y ∈ l2) ls1 ls2) :
    ∀ k : List α, List.Forall₂ (fun x l => x ∈ l) k ls1 ↔
      List.Forall₂ (fun x l => x ∈ l) k ls2 := by
  induction h with
  | nil => intro k; rfl
  | cons h1 h2 ih =>
    intro k
    match k with
    | [] =>
      constructor <;> intro hc <;> cases hc
    | x :: kt =>
      constructor
      · intro hc
        cases hc with
        | cons hx hk => exact List.Forall₂.cons ((h1 x).mp hx) ((ih kt).mp hk)
      · intro hc
        cases hc with
        | cons hx hk => exact List.Forall₂.cons ((h1 x).mpr hx) ((ih kt).mpr hk)

theorem mem_productLists_congr {α : Type} {ls1 ls2 : List (List α)}
    (h : List.Forall₂ (fun l1 l2 => ∀ y, y ∈ l1 ↔ y ∈ l2) ls1 ls2) (k : List α) :
    k ∈ productLists ls1 ↔ k ∈ productLists ls2 := by
  rw [mem_productLists, mem_productLists]
  exact forall₂_mem_congr h k

/-- Index of a member of a nodup list: mere existence form. -/
theorem exists_get_of_mem {α : Type} {l : List α} {u : α} (h : u ∈ l) :
    ∃ i, ∃ hi : i < l.length, l.get ⟨i, hi⟩ = u := by
  obtain ⟨⟨i, hi⟩, hg⟩ := List.get_of_mem h
  exact ⟨i, hi, hg⟩

/-- Marginalizing a fully-populated factor (with the data model's
non-empty, duplicate-free domains) yields a factor with full support over
the remaining scope. -/
theorem marginalized_full (P : Factor) (x : Var) (M : Factor) (d : Domains)
    (hnd : P.scope.Nodup)
    (hkeys : P.values.map Prod.fst = productLists (P.scope.map d))
    (hne : ∀ u, d u ≠ []) (hM : marginalize P x = .ok M) :
    (∀ k, k ∈ M.values.map Prod.fst ↔ k ∈ productLists (M.scope.map d)) ∧
    (M.values.map Prod.fst).Nodup := by
  have hscope := marginalize_ok_scope P x M hM
  have hkeysM := marginalize_ok_keys P x M hM
  have hpv : ∀ u ∈ P.scope.filter (fun u => decide (u ≠ x)), ∀ y,
      (y ∈ possibleValues P u ↔ y ∈ d u) := by
    intro u hu y
    have hus : u ∈ P.scope := (List.mem_filter.mp hu).1
    obtain ⟨i, hi, hg⟩ := exists_get_of_mem hus
    rw [← hg, possibleValues_eq_seenAt P hnd i hi]
    exact mem_seenAt_iff P d hkeys hne i hi y
  constructor
  · intro k
    rw [hkeysM, hscope]
    exact mem_productLists_congr
      (forall₂_map_same (fun l1 l2 => ∀ y, y ∈ l1 ↔ y ∈ l2) (possibleValues P) d _ hpv) k
  · rw [hkeysM]
    apply productLists_nodup
    intro l hl
    obtain ⟨u, hu, rfl⟩ := List.mem_map.mp hl
    obtain ⟨i, hi, hg⟩ := exists_get_of_mem ((List.mem_filter.mp hu).1)
    rw [← hg, possibleValues_eq_seenAt P hnd i hi]
    exact seenAt_nodup P i

/-- `eliminate` never changes the domain mapping. -/
theorem eliminate_domains (b : BayesianNetwork) (x : Var) (net : BayesianNetwork)
    (h : eliminate b x = .ok net) : net.domains = b.domains := by
  unfold eliminate at h
  by_cases hemp : (b.factors.filter (fun f => decide (x ∈ f.scope))).isEmpty = true
  · simp only [hemp, if_true, exceptPure] at h
    injection h with h
    rw [← h]
  · have hemp2 : (b.factors.filter (fun f => decide (x ∈ f.scope))).isEmpty = false := by
      simpa using hemp
    simp only [hemp2, Bool.false_eq_true, if_false] at h
    obtain ⟨P, _, h2⟩ := exceptBind_ok_inv _ _ _ h
    obtain ⟨M, _, h3⟩ := exceptBind_ok_inv _ _ _ h2
    rw [exceptPure] at h3
    injection h3 with h3
    rw [← h3]

/-- The elimination loop of `compute_marginal` never changes the domains. -/
theorem foldList_eliminate_domains (order : List Var) :
    ∀ (b net : BayesianNetwork), exceptFoldList eliminate b order = .ok net →
    net.domains = b.domains := by
  induction order with
  | nil =>
    intro b net h
    replace h : (Except.ok b : Except FactorError BayesianNetwork) = .ok net := h
    injection h with h
    rw [← h]
  | cons v rest ih =>
    intro b net h
    simp only [exceptFoldList] at h
    cases he : eliminate b v with
    | error e =>
      rw [he] at h
      replace h : (Except.error e : Except FactorError BayesianNetwork) = .ok net := h
      exact absurd h (by simp)
    | ok b2 =>
      rw [he] at h
      replace h : exceptFoldList eliminate b2 rest = .ok net := h
      rw [ih b2 net h, eliminate_domains b v b2 he]

/-- C9: every factor `multiply_factors` returns is fully populated — its
keys are exactly the cartesian product of the domains of its scope, in
scope order, with no duplicates when the domains have none; hence the
factor `compute_marginal` returns has full support over the network's
domains, and (with the data model's non-empty duplicate-free domains) so
does every new factor `eliminate` introduces, even when the network's own
factors are sparse. -/
theorem fully_populated_invariant :
    (∀ (fs : List Factor) (d : Domains) (F : Factor), multiply_factors fs d = .ok F →
      F.values.map Prod.fst = productLists (F.scope.map d) ∧
      ((∀ u ∈ F.scope, (d u).Nodup) → (F.values.map Prod.fst).Nodup)) ∧
    (∀ (b : BayesianNetwork) (vars : List Var) (F : Factor),
      compute_marginal b vars = .ok F →
      F.values.map Prod.fst = productLists (F.scope.map b.domains)) ∧
    (∀ (b : BayesianNetwork) (x : Var) (net : BayesianNetwork),
      (∀ u, b.domains u ≠ []) → (∀ u, (b.domains u).Nodup) →
      eliminate b x = .ok net →
      ∀ f ∈ net.factors, f ∈ b.factors ∨
        ((∀ k, k ∈ f.values.map Prod.fst ↔ k ∈ productLists (f.scope.map b.domains)) ∧
         (f.values.map Prod.fst).Nodup)) := by
  have hmul : ∀ (fs : List Factor) (d : Domains) (F : Factor),
      multiply_factors fs d = .ok F →
      F.values.map Prod.fst = productLists (F.scope.map d) ∧
      ((∀ u ∈ F.scope, (d u).Nodup) → (F.values.map Prod.fst).Nodup) := by
    intro fs d F h
    have hsc := multiply_ok_scope fs d F h
    constructor
    · have hk := multiply_ok_keys fs d F h
      rwa [← hsc] at hk
    · intro hdnup
      rw [multiply_ok_keys fs d F h]
      apply productLists_nodup
      intro l hl
      obtain ⟨u, hu, rfl⟩ := List.mem_map.mp hl
      exact hdnup u (by rw [hsc]; exact hu)
  refine ⟨hmul, ?_, ?_⟩
  · intro b vars F h
    unfold compute_marginal at h
    obtain ⟨finalNet, hfold, hmulok⟩ := exceptBind_ok_inv _ _ _ h
    have hdom := foldList_eliminate_domains _ b finalNet hfold
    have h1 := (hmul finalNet.factors finalNet.domains F hmulok).1
    rw [hdom] at h1
    exact h1
  · intro b x net hne hdnd h f hf
    by_cases hemp : (b.factors.filter (fun f => decide (x ∈ f.scope))).isEmpty = true
    · have hnet : net = b := by
        unfold eliminate at h
        simp only [hemp, if_true, exceptPure] at h
        injection h with h
        rw [h]
      subst hnet
      exact Or.inl hf
    · have hemp2 : (b.factors.filter (fun f => decide (x ∈ f.scope))).isEmpty = false := by
        simpa using hemp
      have hfil : b.factors.filter (fun f => decide (x ∈ f.scope)) ≠ [] := by
        intro hc
        rw [hc] at hemp2
        simp at hemp2
      obtain ⟨f0, hf0⟩ := List.exists_mem_of_ne_nil _ hfil
      have hsome : ∃ g ∈ b.factors, x ∈ g.scope := by
        rw [List.mem_filter] at hf0
        exact ⟨f0, hf0.1, by simpa using hf0.2⟩
      obtain ⟨P, M, hm, hg, hfac, _⟩ := eliminate_ok_inv b x net hsome h
      rw [hfac] at hf
      rcases List.mem_append.mp hf with hin | hin
      · exact Or.inl (List.mem_of_mem_filter hin)
      · rw [List.mem_singleton] at hin
        subst hin
        right
        have hPnd : P.scope.Nodup := by
          rw [multiply_ok_scope _ _ _ hm]
          exact unionVars_nodup _
        have hPkeys : P.values.map Prod.fst = productLists (P.scope.map b.domains) := by
          rw [multiply_ok_scope _ _ _ hm]
          exact multiply_ok_keys _ _ _ hm
        exact marginalized_full P x f b.domains hPnd hPkeys hne hg

/-- Witness for C9: the concrete product of the two example factors has
keys that are exactly the cartesian product of the domains of its scope. -/
theorem fully_populated_invariant_witness :
    exProdAB.values.map Prod.fst = productLists (exProdAB.scope.map exDomains) :=
  (fully_populated_invariant.1 [exFA, exFB] exDomains exProdAB exMultiplyAB_eval).1
